import Mathlib

/-!
Verification development for the `ommx.v1` protobuf message layer
(`Function`, `Quadratic`, `Instance`, `Instance.Description`).

The C++ sources are compiler-generated protobuf bindings.  We embed the
value-level data model and the wire format shallowly:

* a `double` field is represented by its 64-bit IEEE-754 bit pattern, a
  `Nat` below `2^64` (no floating-point arithmetic is ever performed by
  the message layer: the bits are stored and serialized verbatim);
* a string is a list of byte values;
* the wire format is the standard protobuf tag/value encoding: varints,
  fixed 64-bit values, and length-delimited payloads.
-/

namespace OmmxV1

abbrev Bytes := List Nat

/-! ## Wire-format primitives -/

/-- Little-endian base-128 varint encoding, driven by a structural fuel
argument (`fuel = n` always suffices since the argument shrinks by a
factor of 128 each step). -/
def encodeVarintAux : Nat → Nat → Bytes
  | 0, n => [n % 128]
  | fuel + 1, n =>
    if n < 128 then [n] else (n % 128 + 128) :: encodeVarintAux fuel (n / 128)

def encodeVarint (n : Nat) : Bytes := encodeVarintAux n n

def decodeVarint : Bytes → Option (Nat × Bytes)
  | [] => none
  | b :: bs =>
    if b < 128 then some (b, bs)
    else
      match decodeVarint bs with
      | some (n, r) => some ((b - 128) + 128 * n, r)
      | none => none

/-- A fixed 64-bit value: eight bytes, little endian. -/
def encodeFixed64 (n : Nat) : Bytes :=
  [n % 256, n / 256 % 256, n / 65536 % 256, n / 16777216 % 256,
   n / 4294967296 % 256, n / 1099511627776 % 256,
   n / 281474976710656 % 256, n / 72057594037927936 % 256]

def decodeFixed64 : Bytes → Option (Nat × Bytes)
  | b0 :: b1 :: b2 :: b3 :: b4 :: b5 :: b6 :: b7 :: r =>
    some (b0 + 256 * b1 + 65536 * b2 + 16777216 * b3 + 4294967296 * b4 +
      1099511627776 * b5 + 281474976710656 * b6 + 72057594037927936 * b7, r)
  | _ => none

/-- A fixed 32-bit value: four bytes, little endian. -/
def encodeFixed32 (n : Nat) : Bytes :=
  [n % 256, n / 256 % 256, n / 65536 % 256, n / 16777216 % 256]

def decodeFixed32 : Bytes → Option (Nat × Bytes)
  | b0 :: b1 :: b2 :: b3 :: r =>
    some (b0 + 256 * b1 + 65536 * b2 + 16777216 * b3, r)
  | _ => none

/-- A decoded wire value: varint, fixed64, length-delimited, or fixed32
(wire types 0, 1, 2 and 5). -/
inductive WireVal where
  | vint (n : Nat)
  | f64 (n : Nat)
  | delim (bs : Bytes)
  | f32 (n : Nat)
deriving DecidableEq

def wireTypeOf : WireVal → Nat
  | .vint _ => 0
  | .f64 _ => 1
  | .delim _ => 2
  | .f32 _ => 5

/-- One field occurrence on the wire: field number paired with payload. -/
abbrev Item := Nat × WireVal

def encodeWireVal : WireVal → Bytes
  | .vint n => encodeVarint n
  | .f64 n => encodeFixed64 n
  | .delim bs => encodeVarint bs.length ++ bs
  | .f32 n => encodeFixed32 n

def encodeItem (it : Item) : Bytes :=
  encodeVarint (8 * it.1 + wireTypeOf it.2) ++ encodeWireVal it.2

def encodeItems : List Item → Bytes
  | [] => []
  | it :: its => encodeItem it ++ encodeItems its

def decodeWire (wt : Nat) (bs : Bytes) : Option (WireVal × Bytes) :=
  if wt = 0 then
    match decodeVarint bs with
    | some (n, r) => some (.vint n, r)
    | none => none
  else if wt = 1 then
    match decodeFixed64 bs with
    | some (n, r) => some (.f64 n, r)
    | none => none
  else if wt = 2 then
    match decodeVarint bs with
    | some (len, r) =>
      if len ≤ r.length then some (.delim (r.take len), r.drop len) else none
    | none => none
  else if wt = 5 then
    match decodeFixed32 bs with
    | some (n, r) => some (.f32 n, r)
    | none => none
  else none

/-- Decode one tagged field.  A tag with field number 0 is malformed. -/
def decodeItem (bs : Bytes) : Option (Item × Bytes) :=
  match decodeVarint bs with
  | some (tag, r) =>
    if tag / 8 = 0 then none
    else
      match decodeWire (tag % 8) r with
      | some (v, r2) => some ((tag / 8, v), r2)
      | none => none
  | none => none

/-- Decode a run of fields until the input is exhausted.  The fuel bounds
the number of fields; every field consumes at least one byte, so fuel
equal to the byte count always suffices. -/
def decodeItemsFuel : Nat → Bytes → Option (List Item)
  | _, [] => some []
  | 0, _ :: _ => none
  | fuel + 1, b :: bs =>
    match decodeItem (b :: bs) with
    | some (it, r) =>
      match decodeItemsFuel fuel r with
      | some its => some (it :: its)
      | none => none
    | none => none

def decodeItems (bs : Bytes) : Option (List Item) :=
  decodeItemsFuel bs.length bs

/-- Well-formedness of a wire value: fixed-width payloads fit their width. -/
def wfWireB : WireVal → Bool
  | .vint _ => true
  | .f64 n => decide (n < 18446744073709551616)
  | .delim _ => true
  | .f32 n => decide (n < 4294967296)

/-- Well-formedness of an item list: positive field numbers and
well-formed payloads. -/
def wfItemsB (its : List Item) : Bool :=
  its.all fun it => decide (1 ≤ it.1) && wfWireB it.2


/-! ## UTF-8 validity

Modelled from the spec: "malformed wire bytes (truncated length prefixes,
invalid UTF-8 in string fields, ...) must fail with a decode error".  The
runtime parser validates UTF-8 structural well-formedness of string
fields (RFC 3629: no overlong forms, no surrogates, code points at most
U+10FFFF); the generated serializer only verifies and still emits. -/

def utf8Cont (b : Nat) : Bool := 128 ≤ b && b ≤ 191

def utf8ValidB : Bytes → Bool
  | [] => true
  | b :: bs =>
    if b ≤ 127 then utf8ValidB bs
    else if 194 ≤ b && b ≤ 223 then
      match bs with
      | b1 :: rest => utf8Cont b1 && utf8ValidB rest
      | [] => false
    else if b = 224 then
      match bs with
      | b1 :: b2 :: rest => (160 ≤ b1 && b1 ≤ 191) && utf8Cont b2 && utf8ValidB rest
      | _ => false
    else if 225 ≤ b && b ≤ 236 then
      match bs with
      | b1 :: b2 :: rest => utf8Cont b1 && utf8Cont b2 && utf8ValidB rest
      | _ => false
    else if b = 237 then
      match bs with
      | b1 :: b2 :: rest => (128 ≤ b1 && b1 ≤ 159) && utf8Cont b2 && utf8ValidB rest
      | _ => false
    else if 238 ≤ b && b ≤ 239 then
      match bs with
      | b1 :: b2 :: rest => utf8Cont b1 && utf8Cont b2 && utf8ValidB rest
      | _ => false
    else if b = 240 then
      match bs with
      | b1 :: b2 :: b3 :: rest =>
        (144 ≤ b1 && b1 ≤ 191) && utf8Cont b2 && utf8Cont b3 && utf8ValidB rest
      | _ => false
    else if 241 ≤ b && b ≤ 243 then
      match bs with
      | b1 :: b2 :: b3 :: rest =>
        utf8Cont b1 && utf8Cont b2 && utf8Cont b3 && utf8ValidB rest
      | _ => false
    else if b = 244 then
      match bs with
      | b1 :: b2 :: b3 :: rest =>
        (128 ≤ b1 && b1 ≤ 143) && utf8Cont b2 && utf8Cont b3 && utf8ValidB rest
      | _ => false
    else false

/-! ## The message data model

Field names follow the generated `Impl_` members (`rows_`, `linear_`,
`sense_`, ...); `unknownFields` stands for the `UnknownFieldSet` kept in
`_internal_metadata_`.  Submessage pointers with a has-bit become
`Option`; the `Function` oneof (tag `_oneof_case_` plus union storage)
becomes a sum type. -/

/-- Modelled from the spec: the `Linear` message shape (`linear.pb.h` is
not among the provided sources).  A sparse linear polynomial: ordered
list of (variable id, coefficient-bit-pattern) term submessages (field 1)
plus a scalar constant term (field 2). -/
structure LinearTerm where
  id : Nat
  coefficient : Nat
deriving DecidableEq

/-- Modelled from the spec: the `Linear` message. -/
structure Linear where
  terms : List LinearTerm
  constant : Nat
  unknownFields : List Item
deriving DecidableEq

/-- `ommx.v1.Quadratic` (`quadratic.pb.h`): three parallel repeated
sequences plus an optional embedded `Linear`. -/
structure Quadratic where
  rows_ : List Nat
  columns_ : List Nat
  values_ : List Nat
  linear_ : Option Linear
  unknownFields : List Item
deriving DecidableEq

/-- The `Function` oneof storage: `FunctionUnion` plus `_oneof_case_`.
`Polynomial`'s shape is not among the provided sources; modelled from the
spec as an opaque submessage payload. -/
inductive FunctionVal where
  | notSet
  | constant (c : Nat)
  | linear (l : Linear)
  | quadratic (q : Quadratic)
  | polynomial (p : Bytes)
deriving DecidableEq

/-- `ommx.v1.Function` (`function.pb.h`). -/
structure Function where
  function_ : FunctionVal
  unknownFields : List Item
deriving DecidableEq

/-- `ommx.v1.Instance.Description` (`instance.pb.cc`): three
independently optional strings (has-bits 0, 1, 2) and a repeated string. -/
structure Instance_Description where
  name_ : Option Bytes
  description_ : Option Bytes
  authors_ : List Bytes
  created_by_ : Option Bytes
  unknownFields : List Item
deriving DecidableEq

/-- `ommx.v1.Instance` (`instance.pb.cc`).  `DecisionVariable` and
`Constraint` shapes are not among the provided sources; modelled from the
spec as opaque submessage payloads. -/
structure Instance where
  description_ : Option Instance_Description
  decision_variables_ : List Bytes
  objective_ : Option Function
  constraints_ : List Bytes
  sense_ : Nat
  unknownFields : List Item
deriving DecidableEq

def defaultLinearTerm : LinearTerm := ⟨0, 0⟩

def defaultLinear : Linear := ⟨[], 0, []⟩

def defaultQuadratic : Quadratic := ⟨[], [], [], none, []⟩

def defaultFunction : Function := ⟨.notSet, []⟩

def defaultDescription : Instance_Description := ⟨none, none, [], none, []⟩

def defaultInstance : Instance := ⟨none, [], none, [], 0, []⟩

/-! ## Accessors and mutators (from `function.pb.h` / `quadratic.pb.h`) -/

/-- `Function::function_case()`: the `_oneof_case_[0]` discriminant
(`kConstant = 1`, `kLinear = 2`, `kQuadratic = 3`, `kPolynomial = 4`,
`FUNCTION_NOT_SET = 0`). -/
def Function.function_case (f : Function) : Nat :=
  match f.function_ with
  | .notSet => 0
  | .constant _ => 1
  | .linear _ => 2
  | .quadratic _ => 3
  | .polynomial _ => 4

def Function.has_constant (f : Function) : Bool := decide (f.function_case = 1)

def Function.has_linear (f : Function) : Bool := decide (f.function_case = 2)

def Function.has_quadratic (f : Function) : Bool := decide (f.function_case = 3)

def Function.has_polynomial (f : Function) : Bool := decide (f.function_case = 4)

/-- `Function::_internal_constant()`: the stored value when the case is
`kConstant`, otherwise 0. -/
def Function.constant (f : Function) : Nat :=
  match f.function_ with
  | .constant c => c
  | _ => 0

/-- `Function::_internal_linear()`: the held submessage when the case is
`kLinear`, otherwise the default instance. -/
def Function.linear (f : Function) : Linear :=
  match f.function_ with
  | .linear l => l
  | _ => defaultLinear

def Function.quadratic (f : Function) : Quadratic :=
  match f.function_ with
  | .quadratic q => q
  | _ => defaultQuadratic

def Function.polynomial (f : Function) : Bytes :=
  match f.function_ with
  | .polynomial p => p
  | _ => []

/-- `Function::clear_function()`. -/
def Function.clear_function (f : Function) : Function :=
  { f with function_ := .notSet }

/-- `Function::set_constant(double)`: when the active case differs it
first runs `clear_function()` and flips the discriminant, then stores the
value into the union. -/
def Function.set_constant (f : Function) (v : Nat) : Function :=
  { f with function_ := .constant v }

/-- `Function::_internal_mutable_linear()`: when the active case differs
it clears the oneof and installs a default-constructed `Linear`;
otherwise the held `Linear` is kept. -/
def Function.mutable_linear (f : Function) : Function :=
  match f.function_ with
  | .linear _ => f
  | _ => { f with function_ := .linear defaultLinear }

def Function.mutable_quadratic (f : Function) : Function :=
  match f.function_ with
  | .quadratic _ => f
  | _ => { f with function_ := .quadratic defaultQuadratic }

def Function.mutable_polynomial (f : Function) : Function :=
  match f.function_ with
  | .polynomial _ => f
  | _ => { f with function_ := .polynomial [] }

/-- `Quadratic::add_rows(uint64)` appends to `rows_` only. -/
def Quadratic.add_rows (q : Quadratic) (v : Nat) : Quadratic :=
  { q with rows_ := q.rows_ ++ [v] }

def Quadratic.add_columns (q : Quadratic) (v : Nat) : Quadratic :=
  { q with columns_ := q.columns_ ++ [v] }

def Quadratic.add_values (q : Quadratic) (v : Nat) : Quadratic :=
  { q with values_ := q.values_ ++ [v] }

def Quadratic.rows_size (q : Quadratic) : Nat := q.rows_.length

def Quadratic.columns_size (q : Quadratic) : Nat := q.columns_.length

def Quadratic.values_size (q : Quadratic) : Nat := q.values_.length

/-- `Quadratic::has_linear()`: has-bit 0 of `_has_bits_`. -/
def Quadratic.has_linear (q : Quadratic) : Bool := q.linear_.isSome

/-- `Quadratic::_internal_linear()`: the held pointer, or the default
instance when none is held. -/
def Quadratic.linear (q : Quadratic) : Linear := q.linear_.getD defaultLinear

/-- `Instance_Sense_IsValid` (`instance.pb.cc`): `0 <= value && value <= 2`. -/
def Instance_Sense_IsValid (value : Int) : Bool :=
  decide (0 ≤ value) && decide (value ≤ 2)

/-- `Instance::IsInitialized()` (`instance.pb.cc`): unconditionally true. -/
def Instance.IsInitialized (_i : Instance) : Bool := true

/-- `Instance_Description::IsInitialized()` (`instance.pb.cc`):
unconditionally true. -/
def Instance_Description.IsInitialized (_d : Instance_Description) : Bool := true

/-- Modelled from the spec: `Quadratic::IsInitialized()` (its body is not
among the provided sources; the spec states all messages are structurally
valid once decoded, no field is required). -/
def Quadratic.IsInitialized (_q : Quadratic) : Bool := true

/-! ## Merge / Clear / CopyFrom -/

/-- Modelled from the spec: `Linear`'s generated `MergeImpl` is not among
the provided sources; standard proto3 merge (repeated fields append,
scalar overwritten when the source value is nonzero, unknown fields
append). -/
def mergeLinear (t s : Linear) : Linear :=
  { terms := t.terms ++ s.terms
    constant := if s.constant ≠ 0 then s.constant else t.constant
    unknownFields := t.unknownFields ++ s.unknownFields }

/-- Modelled from the spec: `Quadratic`'s generated `MergeImpl` is not
among the provided sources; standard proto3 merge. -/
def mergeQuadratic (t s : Quadratic) : Quadratic :=
  { rows_ := t.rows_ ++ s.rows_
    columns_ := t.columns_ ++ s.columns_
    values_ := t.values_ ++ s.values_
    linear_ :=
      match s.linear_ with
      | some sl => some (match t.linear_ with | none => sl | some tl => mergeLinear tl sl)
      | none => t.linear_
    unknownFields := t.unknownFields ++ s.unknownFields }

/-- Modelled from the spec: `Function`'s generated `MergeImpl` is not
among the provided sources; standard proto3 oneof merge: nothing happens
when the source oneof is unset, a set source case overwrites (merging
recursively when both sides hold the same message case). -/
def mergeFunction (t s : Function) : Function :=
  { function_ :=
      match s.function_, t.function_ with
      | .notSet, tv => tv
      | .constant c, _ => .constant c
      | .linear sl, .linear tl => .linear (mergeLinear tl sl)
      | .linear sl, _ => .linear sl
      | .quadratic sq, .quadratic tq => .quadratic (mergeQuadratic tq sq)
      | .quadratic sq, _ => .quadratic sq
      | .polynomial sp, .polynomial tp => .polynomial (tp ++ sp)
      | .polynomial sp, _ => .polynomial sp
    unknownFields := t.unknownFields ++ s.unknownFields }

/-- `Instance_Description::MergeImpl` (`instance.pb.cc`): authors append,
each optional string is copied when present in the source, has-bits are
or-ed, unknown fields append. -/
def mergeDescription (t s : Instance_Description) : Instance_Description :=
  { name_ := match s.name_ with | some v => some v | none => t.name_
    description_ := match s.description_ with | some v => some v | none => t.description_
    authors_ := t.authors_ ++ s.authors_
    created_by_ := match s.created_by_ with | some v => some v | none => t.created_by_
    unknownFields := t.unknownFields ++ s.unknownFields }

/-- `Instance::MergeImpl` (`instance.pb.cc`): repeated fields append,
present source submessages are copy-constructed into an absent
destination slot or recursively merged into a present one, `sense_` is
overwritten only when the source value is nonzero, has-bits are or-ed,
unknown fields append. -/
def mergeInstance (t s : Instance) : Instance :=
  { description_ :=
      match s.description_ with
      | some sd => some (match t.description_ with | none => sd | some td => mergeDescription td sd)
      | none => t.description_
    decision_variables_ := t.decision_variables_ ++ s.decision_variables_
    objective_ :=
      match s.objective_ with
      | some so => some (match t.objective_ with | none => so | some tf => mergeFunction tf so)
      | none => t.objective_
    constraints_ := t.constraints_ ++ s.constraints_
    sense_ := if s.sense_ ≠ 0 then s.sense_ else t.sense_
    unknownFields := t.unknownFields ++ s.unknownFields }

/-- `Instance_Description::Clear()` (`instance.pb.cc`): authors cleared,
present strings cleared to empty with has-bits dropped, unknown fields
cleared. -/
def clearDescription (_d : Instance_Description) : Instance_Description :=
  { name_ := none, description_ := none, authors_ := [], created_by_ := none,
    unknownFields := [] }

/-- `Instance::Clear()` (`instance.pb.cc`): repeated fields cleared, held
submessages cleared with has-bits dropped, `sense_ = 0`, unknown fields
cleared. -/
def clearInstance (_i : Instance) : Instance :=
  { description_ := none, decision_variables_ := [], objective_ := none,
    constraints_ := [], sense_ := 0, unknownFields := [] }

/-- `Instance_Description::CopyFrom` (`instance.pb.cc`): self-assignment
guard, then `Clear()` followed by `MergeFrom(from)`. -/
def copyFromDescription (t s : Instance_Description) : Instance_Description :=
  if t = s then t else mergeDescription (clearDescription t) s

/-- `Instance::CopyFrom` (`instance.pb.cc`): self-assignment guard, then
`Clear()` followed by `MergeFrom(from)`. -/
def copyFromInstance (t s : Instance) : Instance :=
  if t = s then t else mergeInstance (clearInstance t) s

/-! ## Serialization

Each serializer is given as the list of wire items it emits, in source
order, followed by `encodeItems`.  The item lists for `Instance` and
`Instance.Description` transcribe `_InternalSerialize` from
`instance.pb.cc` (known fields in field-number order gated on has-bits,
then the unknown-field set).  The serializers of `Function`, `Quadratic`
and `Linear` are not among the provided sources and are modelled from
the spec's field-number table (proto3: implicit scalar fields are emitted
only when nonzero, repeated scalars are packed, a set oneof member is
always emitted). -/

def optItem (num : Nat) : Option Bytes → List Item
  | none => []
  | some s => [(num, .delim s)]

def packVarints : List Nat → Bytes
  | [] => []
  | n :: ns => encodeVarint n ++ packVarints ns

def packFixed64 : List Nat → Bytes
  | [] => []
  | n :: ns => encodeFixed64 n ++ packFixed64 ns

/-- Modelled from the spec: one `Linear` term submessage. -/
def itemsOfLinearTerm (t : LinearTerm) : List Item :=
  (if t.id = 0 then [] else [(1, .vint t.id)]) ++
  (if t.coefficient = 0 then [] else [(2, .f64 t.coefficient)])

def encodeLinearTerm (t : LinearTerm) : Bytes := encodeItems (itemsOfLinearTerm t)

/-- Modelled from the spec: the known fields emitted for a `Linear`. -/
def knownItemsLinear (l : Linear) : List Item :=
  l.terms.map (fun t => (1, .delim (encodeLinearTerm t))) ++
  (if l.constant = 0 then [] else [(2, .f64 l.constant)])

def itemsOfLinear (l : Linear) : List Item := knownItemsLinear l ++ l.unknownFields

def encodeLinear (l : Linear) : Bytes := encodeItems (itemsOfLinear l)

def optLinearItem : Option Linear → List Item
  | none => []
  | some l => [(4, .delim (encodeLinear l))]

/-- Modelled from the spec: the known fields emitted for a `Quadratic`
(`rows = 1` packed uint64, `columns = 2` packed uint64, `values = 3`
packed double, `linear = 4` optional message). -/
def knownItemsQuadratic (q : Quadratic) : List Item :=
  (if q.rows_ = [] then [] else [(1, .delim (packVarints q.rows_))]) ++
  (if q.columns_ = [] then [] else [(2, .delim (packVarints q.columns_))]) ++
  (if q.values_ = [] then [] else [(3, .delim (packFixed64 q.values_))]) ++
  optLinearItem q.linear_

def itemsOfQuadratic (q : Quadratic) : List Item :=
  knownItemsQuadratic q ++ q.unknownFields

def encodeQuadratic (q : Quadratic) : Bytes := encodeItems (itemsOfQuadratic q)

/-- Modelled from the spec: the known fields emitted for a `Function`
(`constant = 1` double, `linear = 2`, `quadratic = 3`, `polynomial = 4`;
the set oneof member is emitted even when zero-valued). -/
def knownItemsFunction (f : Function) : List Item :=
  match f.function_ with
  | .notSet => []
  | .constant c => [(1, .f64 c)]
  | .linear l => [(2, .delim (encodeLinear l))]
  | .quadratic q => [(3, .delim (encodeQuadratic q))]
  | .polynomial p => [(4, .delim p)]

def itemsOfFunction (f : Function) : List Item :=
  knownItemsFunction f ++ f.unknownFields

def encodeFunction (f : Function) : Bytes := encodeItems (itemsOfFunction f)

def optFunctionItem : Option Function → List Item
  | none => []
  | some f => [(3, .delim (encodeFunction f))]

/-- `Instance_Description::_InternalSerialize` (`instance.pb.cc`): name
(1) when has-bit 0, description (2) when has-bit 1, each author (3),
created_by (4) when has-bit 2. -/
def knownItemsDescription (d : Instance_Description) : List Item :=
  optItem 1 d.name_ ++ optItem 2 d.description_ ++
  d.authors_.map (fun s => (3, .delim s)) ++ optItem 4 d.created_by_

def itemsOfDescription (d : Instance_Description) : List Item :=
  knownItemsDescription d ++ d.unknownFields

def encodeDescription (d : Instance_Description) : Bytes :=
  encodeItems (itemsOfDescription d)

def optDescriptionItem : Option Instance_Description → List Item
  | none => []
  | some d => [(1, .delim (encodeDescription d))]

/-- `Instance::_InternalSerialize` (`instance.pb.cc`): description (1)
when has-bit 0, each decision variable (2), objective (3) when has-bit 1,
each constraint (4), sense (5) when nonzero. -/
def knownItemsInstance (i : Instance) : List Item :=
  optDescriptionItem i.description_ ++
  i.decision_variables_.map (fun b => (2, .delim b)) ++
  optFunctionItem i.objective_ ++
  i.constraints_.map (fun b => (4, .delim b)) ++
  (if i.sense_ = 0 then [] else [(5, .vint i.sense_)])

def itemsOfInstance (i : Instance) : List Item :=
  knownItemsInstance i ++ i.unknownFields

def encodeInstance (i : Instance) : Bytes := encodeItems (itemsOfInstance i)

/-! ## Decoding

Modelled from the spec and driven by the `TcParseTable`s in the sources:
the wire bytes are split into tagged fields; a known field number with
the expected wire type updates the message (singular scalars and strings
overwrite, repeated fields append, submessages are parsed into the
existing value so repeated occurrences merge); any other well-formed
field is preserved in the unknown-field set.  `sense` is an open enum
(`kOpenEnum` in the parse table): the raw varint is stored truncated to
32 bits without validation. -/

def optFold {α : Type} (f : α → Item → Option α) : α → List Item → Option α
  | a, [] => some a
  | a, it :: its =>
    match f a it with
    | some b => optFold f b its
    | none => none

def decodePackedVarintsFuel : Nat → Bytes → Option (List Nat)
  | _, [] => some []
  | 0, _ :: _ => none
  | fuel + 1, b :: bs =>
    match decodeVarint (b :: bs) with
    | some (n, r) =>
      match decodePackedVarintsFuel fuel r with
      | some ns => some (n :: ns)
      | none => none
    | none => none

def decodePackedVarints (bs : Bytes) : Option (List Nat) :=
  decodePackedVarintsFuel bs.length bs

def decodePackedFixed64Fuel : Nat → Bytes → Option (List Nat)
  | _, [] => some []
  | 0, _ :: _ => none
  | fuel + 1, b :: bs =>
    match decodeFixed64 (b :: bs) with
    | some (n, r) =>
      match decodePackedFixed64Fuel fuel r with
      | some ns => some (n :: ns)
      | none => none
    | none => none

def decodePackedFixed64 (bs : Bytes) : Option (List Nat) :=
  decodePackedFixed64Fuel bs.length bs

/-- Modelled from the spec: parsing one field of a `Linear` term
submessage. -/
def applyLinearTerm (t : LinearTerm) (it : Item) : Option LinearTerm :=
  if it.1 = 1 then
    match it.2 with
    | .vint n => some { t with id := n }
    | _ => none
  else if it.1 = 2 then
    match it.2 with
    | .f64 c => some { t with coefficient := c }
    | _ => none
  else none

def decodeLinearTerm (bs : Bytes) : Option LinearTerm :=
  match decodeItems bs with
  | some its => optFold applyLinearTerm defaultLinearTerm its
  | none => none

def pushUnknownLinear (l : Linear) (it : Item) : Linear :=
  { l with unknownFields := l.unknownFields ++ [it] }

/-- Modelled from the spec: parsing one field of a `Linear`. -/
def applyLinear (l : Linear) (it : Item) : Option Linear :=
  if it.1 = 1 then
    match it.2 with
    | .delim bs =>
      match decodeLinearTerm bs with
      | some t => some { l with terms := l.terms ++ [t] }
      | none => none
    | _ => some (pushUnknownLinear l it)
  else if it.1 = 2 then
    match it.2 with
    | .f64 c => some { l with constant := c }
    | _ => some (pushUnknownLinear l it)
  else some (pushUnknownLinear l it)

def decodeLinear (bs : Bytes) : Option Linear :=
  match decodeItems bs with
  | some its => optFold applyLinear defaultLinear its
  | none => none

def pushUnknownQuadratic (q : Quadratic) (it : Item) : Quadratic :=
  { q with unknownFields := q.unknownFields ++ [it] }

/-- Parsing one field of a `Quadratic` (parse table in
`quadratic.pb.h`): packed or unpacked repeated scalars append, the
`linear` submessage is parsed into the existing value. -/
def applyQuadratic (q : Quadratic) (it : Item) : Option Quadratic :=
  if it.1 = 1 then
    match it.2 with
    | .delim bs =>
      match decodePackedVarints bs with
      | some ns => some { q with rows_ := q.rows_ ++ ns }
      | none => none
    | .vint n => some { q with rows_ := q.rows_ ++ [n] }
    | _ => some (pushUnknownQuadratic q it)
  else if it.1 = 2 then
    match it.2 with
    | .delim bs =>
      match decodePackedVarints bs with
      | some ns => some { q with columns_ := q.columns_ ++ ns }
      | none => none
    | .vint n => some { q with columns_ := q.columns_ ++ [n] }
    | _ => some (pushUnknownQuadratic q it)
  else if it.1 = 3 then
    match it.2 with
    | .delim bs =>
      match decodePackedFixed64 bs with
      | some vs => some { q with values_ := q.values_ ++ vs }
      | none => none
    | .f64 v => some { q with values_ := q.values_ ++ [v] }
    | _ => some (pushUnknownQuadratic q it)
  else if it.1 = 4 then
    match it.2 with
    | .delim bs =>
      match decodeItems bs with
      | some its =>
        match optFold applyLinear (q.linear_.getD defaultLinear) its with
        | some l => some { q with linear_ := some l }
        | none => none
      | none => none
    | _ => some (pushUnknownQuadratic q it)
  else some (pushUnknownQuadratic q it)

def decodeQuadratic (bs : Bytes) : Option Quadratic :=
  match decodeItems bs with
  | some its => optFold applyQuadratic defaultQuadratic its
  | none => none

def pushUnknownFunction (f : Function) (it : Item) : Function :=
  { f with unknownFields := f.unknownFields ++ [it] }

/-- Parsing one field of a `Function` (parse table in `function.pb.h`):
a oneof field occurrence switches the discriminant; a message member is
parsed into the currently held value when the case already matches and
into a fresh default otherwise. -/
def applyFunction (f : Function) (it : Item) : Option Function :=
  if it.1 = 1 then
    match it.2 with
    | .f64 c => some { f with function_ := .constant c }
    | _ => some (pushUnknownFunction f it)
  else if it.1 = 2 then
    match it.2 with
    | .delim bs =>
      match decodeItems bs with
      | some its =>
        match optFold applyLinear
            (match f.function_ with | .linear l0 => l0 | _ => defaultLinear) its with
        | some l => some { f with function_ := .linear l }
        | none => none
      | none => none
    | _ => some (pushUnknownFunction f it)
  else if it.1 = 3 then
    match it.2 with
    | .delim bs =>
      match decodeItems bs with
      | some its =>
        match optFold applyQuadratic
            (match f.function_ with | .quadratic q0 => q0 | _ => defaultQuadratic) its with
        | some q => some { f with function_ := .quadratic q }
        | none => none
      | none => none
    | _ => some (pushUnknownFunction f it)
  else if it.1 = 4 then
    match it.2 with
    | .delim bs =>
      match f.function_ with
      | .polynomial p0 => some { f with function_ := .polynomial (p0 ++ bs) }
      | _ => some { f with function_ := .polynomial bs }
    | _ => some (pushUnknownFunction f it)
  else some (pushUnknownFunction f it)

def decodeFunction (bs : Bytes) : Option Function :=
  match decodeItems bs with
  | some its => optFold applyFunction defaultFunction its
  | none => none

def pushUnknownDescription (d : Instance_Description) (it : Item) : Instance_Description :=
  { d with unknownFields := d.unknownFields ++ [it] }

/-- Parsing one field of an `Instance.Description` (parse table in
`instance.pb.cc`, fields `kUtf8String`): singular strings overwrite and
set the has-bit, authors append; invalid UTF-8 fails the parse. -/
def applyDescription (d : Instance_Description) (it : Item) : Option Instance_Description :=
  if it.1 = 1 then
    match it.2 with
    | .delim bs => if utf8ValidB bs then some { d with name_ := some bs } else none
    | _ => some (pushUnknownDescription d it)
  else if it.1 = 2 then
    match it.2 with
    | .delim bs => if utf8ValidB bs then some { d with description_ := some bs } else none
    | _ => some (pushUnknownDescription d it)
  else if it.1 = 3 then
    match it.2 with
    | .delim bs =>
      if utf8ValidB bs then some { d with authors_ := d.authors_ ++ [bs] } else none
    | _ => some (pushUnknownDescription d it)
  else if it.1 = 4 then
    match it.2 with
    | .delim bs => if utf8ValidB bs then some { d with created_by_ := some bs } else none
    | _ => some (pushUnknownDescription d it)
  else some (pushUnknownDescription d it)

def decodeDescription (bs : Bytes) : Option Instance_Description :=
  match decodeItems bs with
  | some its => optFold applyDescription defaultDescription its
  | none => none

def pushUnknownInstance (i : Instance) (it : Item) : Instance :=
  { i with unknownFields := i.unknownFields ++ [it] }

/-- Parsing one field of an `Instance` (parse table in
`instance.pb.cc`): singular submessages are parsed into the existing
value, repeated submessages append, `sense` (open enum, parsed by
`SingularVarintNoZag1<uint32_t>`) stores the raw varint truncated to 32
bits. -/
def applyInstance (i : Instance) (it : Item) : Option Instance :=
  if it.1 = 1 then
    match it.2 with
    | .delim bs =>
      match decodeItems bs with
      | some its =>
        match optFold applyDescription (i.description_.getD defaultDescription) its with
        | some d => some { i with description_ := some d }
        | none => none
      | none => none
    | _ => some (pushUnknownInstance i it)
  else if it.1 = 2 then
    match it.2 with
    | .delim bs => some { i with decision_variables_ := i.decision_variables_ ++ [bs] }
    | _ => some (pushUnknownInstance i it)
  else if it.1 = 3 then
    match it.2 with
    | .delim bs =>
      match decodeItems bs with
      | some its =>
        match optFold applyFunction (i.objective_.getD defaultFunction) its with
        | some f => some { i with objective_ := some f }
        | none => none
      | none => none
    | _ => some (pushUnknownInstance i it)
  else if it.1 = 4 then
    match it.2 with
    | .delim bs => some { i with constraints_ := i.constraints_ ++ [bs] }
    | _ => some (pushUnknownInstance i it)
  else if it.1 = 5 then
    match it.2 with
    | .vint n => some { i with sense_ := n % 4294967296 }
    | _ => some (pushUnknownInstance i it)
  else some (pushUnknownInstance i it)

def decodeInstance (bs : Bytes) : Option Instance :=
  match decodeItems bs with
  | some its => optFold applyInstance defaultInstance its
  | none => none

/-! ## Well-formedness

`wf*B` holds of every message value reachable through the generated API
with in-range scalar inputs: 64-bit scalars fit 64 bits, string fields
hold valid UTF-8, `sense_` holds a nonnegative enum value, and the
unknown-field set holds only positive field numbers that are not among
the message's known ones (the parser never records a known number with
its expected wire type as unknown). -/

def wfUnknownB (known : List Nat) (u : List Item) : Bool :=
  u.all fun it => decide (1 ≤ it.1) && decide (it.1 ∉ known) && wfWireB it.2

def optStrValidB : Option Bytes → Bool
  | none => true
  | some s => utf8ValidB s

def wfLinearTermB (t : LinearTerm) : Bool :=
  decide (t.id < 18446744073709551616) && decide (t.coefficient < 18446744073709551616)

def wfLinearB (l : Linear) : Bool :=
  l.terms.all wfLinearTermB && decide (l.constant < 18446744073709551616) &&
  wfUnknownB [1, 2] l.unknownFields

def wfQuadraticB (q : Quadratic) : Bool :=
  q.rows_.all (fun n => decide (n < 18446744073709551616)) &&
  q.columns_.all (fun n => decide (n < 18446744073709551616)) &&
  q.values_.all (fun n => decide (n < 18446744073709551616)) &&
  (match q.linear_ with | none => true | some l => wfLinearB l) &&
  wfUnknownB [1, 2, 3, 4] q.unknownFields

def wfFunctionB (f : Function) : Bool :=
  (match f.function_ with
   | .notSet => true
   | .constant c => decide (c < 18446744073709551616)
   | .linear l => wfLinearB l
   | .quadratic q => wfQuadraticB q
   | .polynomial _ => true) &&
  wfUnknownB [1, 2, 3, 4] f.unknownFields

def wfDescriptionB (d : Instance_Description) : Bool :=
  optStrValidB d.name_ && optStrValidB d.description_ &&
  d.authors_.all utf8ValidB && optStrValidB d.created_by_ &&
  wfUnknownB [1, 2, 3, 4] d.unknownFields

def wfInstanceB (i : Instance) : Bool :=
  (match i.description_ with | none => true | some d => wfDescriptionB d) &&
  (match i.objective_ with | none => true | some f => wfFunctionB f) &&
  decide (i.sense_ < 2147483648) &&
  wfUnknownB [1, 2, 3, 4, 5] i.unknownFields

/-! ## Call sequences on the `Function` oneof -/

/-- One mutating call on the `Function` oneof: `set_constant(v)`,
`mutable_linear()`, `mutable_quadratic()` or `mutable_polynomial()`. -/
inductive FnOp where
  | setConstant (v : Nat)
  | mutLinear
  | mutQuadratic
  | mutPolynomial
deriving DecidableEq

def applyFnOp (f : Function) : FnOp → Function
  | .setConstant v => f.set_constant v
  | .mutLinear => f.mutable_linear
  | .mutQuadratic => f.mutable_quadratic
  | .mutPolynomial => f.mutable_polynomial

/-- The oneof discriminant selected by a call. -/
def fnOpCase : FnOp → Nat
  | .setConstant _ => 1
  | .mutLinear => 2
  | .mutQuadratic => 3
  | .mutPolynomial => 4

/-- The expected `(has_constant, has_linear, has_quadratic,
has_polynomial)` answers after a call: exactly the touched variant is
present. -/
def variantFlags : FnOp → Bool × Bool × Bool × Bool
  | .setConstant _ => (true, false, false, false)
  | .mutLinear => (false, true, false, false)
  | .mutQuadratic => (false, false, true, false)
  | .mutPolynomial => (false, false, false, true)

/-! ## Concrete example values -/

/-- `x1 * 2.0 + x2 * 0.0 + 1.0` as bit patterns (`2.0` is
`0x4000000000000000`, `1.0` is `0x3FF0000000000000`). -/
def exLinear : Linear := ⟨[⟨1, 4611686018427387904⟩, ⟨2, 0⟩], 4607182418800017408, []⟩

def exFunction : Function := ⟨.linear exLinear, []⟩

def exQuadratic : Quadratic :=
  ⟨[0, 1], [1, 2], [4611686018427387904, 4607182418800017408], some exLinear, []⟩

/-- A `Description` exercising all three optional-string states: `name`
absent, `description` present but empty, `created_by` present with the
bytes of "ommx"; plus one unknown field. -/
def exDescription : Instance_Description :=
  ⟨none, some [], [[104, 105]], some [111, 109, 109, 120], [(6, .vint 7)]⟩

def exInstance : Instance :=
  ⟨some exDescription, [[8, 1]], some exFunction, [[16, 2], []], 1, [(7, .delim [1, 2, 3])]⟩

/-- Two `add_rows` calls and one `add_values` call: parallel sequences
with deliberately mismatched lengths (2 / 0 / 1). -/
def exMismatchedQuadratic : Quadratic :=
  ((defaultQuadratic.add_rows 1).add_rows 2).add_values 5

/-! ## Wire-format round-trip lemmas -/

theorem decodeVarint_encodeVarintAux (fuel : Nat) :
    ∀ n r, n ≤ fuel → decodeVarint (encodeVarintAux fuel n ++ r) = some (n, r) := by
  induction fuel with
  | zero =>
    intro n r hn
    interval_cases n
    simp [encodeVarintAux, decodeVarint]
  | succ f ih =>
    intro n r hn
    by_cases h : n < 128
    · simp [encodeVarintAux, h, decodeVarint]
    · have h128 : 128 ≤ n := by omega
      have hrec : n / 128 ≤ f := by omega
      simp only [encodeVarintAux, if_neg h, List.cons_append, decodeVarint]
      have hb : ¬ (n % 128 + 128 < 128) := by omega
      rw [if_neg hb, ih (n / 128) r hrec]
      simp only [Option.some.injEq, Prod.mk.injEq]
      exact ⟨by omega, trivial⟩

theorem decodeVarint_encodeVarint (n : Nat) (r : Bytes) :
    decodeVarint (encodeVarint n ++ r) = some (n, r) :=
  decodeVarint_encodeVarintAux n n r (Nat.le_refl n)

theorem encodeVarintAux_ne_nil (fuel n : Nat) : encodeVarintAux fuel n ≠ [] := by
  cases fuel with
  | zero => simp [encodeVarintAux]
  | succ f =>
    by_cases h : n < 128 <;> simp [encodeVarintAux, h]

theorem encodeVarint_ne_nil (n : Nat) : encodeVarint n ≠ [] :=
  encodeVarintAux_ne_nil n n

theorem decodeFixed64_encodeFixed64 (n : Nat) (r : Bytes) (h : n < 18446744073709551616) :
    decodeFixed64 (encodeFixed64 n ++ r) = some (n, r) := by
  simp only [encodeFixed64, List.cons_append, List.nil_append, decodeFixed64,
    Option.some.injEq, Prod.mk.injEq]
  exact ⟨by omega, trivial⟩

theorem decodeFixed32_encodeFixed32 (n : Nat) (r : Bytes) (h : n < 4294967296) :
    decodeFixed32 (encodeFixed32 n ++ r) = some (n, r) := by
  simp only [encodeFixed32, List.cons_append, List.nil_append, decodeFixed32,
    Option.some.injEq, Prod.mk.injEq]
  exact ⟨by omega, trivial⟩

theorem decodeWire_encodeWireVal (v : WireVal) (r : Bytes) (h : wfWireB v = true) :
    decodeWire (wireTypeOf v) (encodeWireVal v ++ r) = some (v, r) := by
  cases v with
  | vint n => simp [wireTypeOf, encodeWireVal, decodeWire, decodeVarint_encodeVarint]
  | f64 n =>
    simp only [wfWireB, decide_eq_true_eq] at h
    simp [wireTypeOf, encodeWireVal, decodeWire, decodeFixed64_encodeFixed64 n r h]
  | delim bs =>
    show decodeWire 2 ((encodeVarint bs.length ++ bs) ++ r) = some (.delim bs, r)
    rw [List.append_assoc]
    simp only [decodeWire, decodeVarint_encodeVarint]
    norm_num
  | f32 n =>
    simp only [wfWireB, decide_eq_true_eq] at h
    simp [wireTypeOf, encodeWireVal, decodeWire, decodeFixed32_encodeFixed32 n r h]

theorem wireTypeOf_lt (v : WireVal) : wireTypeOf v < 8 := by
  cases v <;> simp [wireTypeOf]

theorem decodeItem_encodeItem (it : Item) (r : Bytes)
    (hn : 1 ≤ it.1) (hv : wfWireB it.2 = true) :
    decodeItem (encodeItem it ++ r) = some (it, r) := by
  obtain ⟨n, v⟩ := it
  simp only [encodeItem, List.append_assoc, decodeItem, decodeVarint_encodeVarint]
  have hwt := wireTypeOf_lt v
  have hdiv : (8 * n + wireTypeOf v) / 8 = n := by omega
  have hmod : (8 * n + wireTypeOf v) % 8 = wireTypeOf v := by omega
  rw [hdiv, hmod, if_neg (by simp at hn; omega), decodeWire_encodeWireVal v r hv]

theorem encodeItem_ne_nil (it : Item) : encodeItem it ≠ [] := by
  obtain ⟨n, v⟩ := it
  simp only [encodeItem]
  intro h
  exact encodeVarint_ne_nil _ (List.append_eq_nil.mp h).1

theorem decodeItemsFuel_encodeItems :
    ∀ (its : List Item) (fuel : Nat), wfItemsB its = true →
      (encodeItems its).length ≤ fuel →
      decodeItemsFuel fuel (encodeItems its) = some its := by
  intro its
  induction its with
  | nil => intro fuel _ _; simp [encodeItems, decodeItemsFuel]
  | cons it its ih =>
    intro fuel hwf hlen
    simp only [wfItemsB, List.all_cons, Bool.and_eq_true, decide_eq_true_eq] at hwf
    obtain ⟨⟨hn, hv⟩, hwfits⟩ := hwf
    have hne : encodeItem it ≠ [] := encodeItem_ne_nil it
    have hlen1 : 1 ≤ (encodeItem it).length := by
      cases h : encodeItem it with
      | nil => exact absurd h hne
      | cons a as => simp
    simp only [encodeItems, List.length_append] at hlen
    obtain ⟨b, bs, hbs⟩ : ∃ b bs, encodeItem it ++ encodeItems its = b :: bs := by
      cases h : encodeItem it with
      | nil => exact absurd h hne
      | cons a as => exact ⟨a, as ++ encodeItems its, by simp⟩
    obtain ⟨f, rfl⟩ : ∃ f, fuel = f + 1 := ⟨fuel - 1, by omega⟩
    simp only [encodeItems, hbs, decodeItemsFuel]
    rw [← hbs, decodeItem_encodeItem it _ hn hv]
    simp [ih f hwfits (by omega)]

theorem decodeItems_encodeItems (its : List Item) (hwf : wfItemsB its = true) :
    decodeItems (encodeItems its) = some its :=
  decodeItemsFuel_encodeItems its (encodeItems its).length hwf (Nat.le_refl _)

theorem encodeItems_append (a b : List Item) :
    encodeItems (a ++ b) = encodeItems a ++ encodeItems b := by
  induction a with
  | nil => simp [encodeItems]
  | cons it its ih => simp [encodeItems, ih]

/-! ## Decode-of-encode: generic fold lemmas -/

theorem optFold_append {α : Type} (f : α → Item → Option α) (a : α) (l1 l2 : List Item) :
    optFold f a (l1 ++ l2) =
      match optFold f a l1 with
      | some b => optFold f b l2
      | none => none := by
  induction l1 generalizing a with
  | nil => simp [optFold]
  | cons it its ih =>
    simp only [List.cons_append, optFold]
    cases f a it with
    | some b => exact ih b
    | none => rfl

theorem wfItemsB_append (a b : List Item) :
    wfItemsB (a ++ b) = (wfItemsB a && wfItemsB b) := by
  simp [wfItemsB, List.all_append]

theorem wfItemsB_of_wfUnknownB (known : List Nat) (u : List Item)
    (h : wfUnknownB known u = true) : wfItemsB u = true := by
  simp only [wfUnknownB, List.all_eq_true, Bool.and_eq_true, decide_eq_true_eq] at h
  simp only [wfItemsB, List.all_eq_true, Bool.and_eq_true, decide_eq_true_eq]
  intro it hit
  exact ⟨(h it hit).1.1, (h it hit).2⟩

theorem decodePackedVarintsFuel_pack :
    ∀ (ns : List Nat) (fuel : Nat), (packVarints ns).length ≤ fuel →
      decodePackedVarintsFuel fuel (packVarints ns) = some ns := by
  intro ns
  induction ns with
  | nil => intro fuel _; simp [packVarints, decodePackedVarintsFuel]
  | cons n ns ih =>
    intro fuel hlen
    have hne : encodeVarint n ≠ [] := encodeVarint_ne_nil n
    obtain ⟨b, bs, hbs⟩ : ∃ b bs, packVarints (n :: ns) = b :: bs := by
      cases h : encodeVarint n with
      | nil => exact absurd h hne
      | cons x xs => exact ⟨x, xs ++ packVarints ns, by simp [packVarints, h]⟩
    have hlen1 : 1 ≤ (encodeVarint n).length := by
      cases h : encodeVarint n with
      | nil => exact absurd h hne
      | cons x xs => simp
    simp only [packVarints, List.length_append] at hlen
    obtain ⟨f, rfl⟩ : ∃ f, fuel = f + 1 := ⟨fuel - 1, by omega⟩
    rw [show packVarints (n :: ns) = b :: bs from hbs, decodePackedVarintsFuel]
    rw [← hbs]
    show (match decodeVarint (encodeVarint n ++ packVarints ns) with
      | some (m, r) =>
        match decodePackedVarintsFuel f r with
        | some ms => some (m :: ms)
        | none => none
      | none => none) = some (n :: ns)
    rw [decodeVarint_encodeVarint]
    simp [ih f (by omega)]

theorem decodePackedVarints_pack (ns : List Nat) :
    decodePackedVarints (packVarints ns) = some ns :=
  decodePackedVarintsFuel_pack ns _ (Nat.le_refl _)

theorem packFixed64_length (ns : List Nat) :
    (packFixed64 ns).length = 8 * ns.length := by
  induction ns with
  | nil => simp [packFixed64]
  | cons n ns ih => simp [packFixed64, encodeFixed64, ih]; omega

theorem decodePackedFixed64Fuel_pack :
    ∀ (ns : List Nat) (fuel : Nat),
      (ns.all fun n => decide (n < 18446744073709551616)) = true →
      (packFixed64 ns).length ≤ fuel →
      decodePackedFixed64Fuel fuel (packFixed64 ns) = some ns := by
  intro ns
  induction ns with
  | nil => intro fuel _ _; simp [packFixed64, decodePackedFixed64Fuel]
  | cons n ns ih =>
    intro fuel hwf hlen
    simp only [List.all_cons, Bool.and_eq_true, decide_eq_true_eq] at hwf
    obtain ⟨hn, hns⟩ := hwf
    obtain ⟨b, bs, hbs⟩ : ∃ b bs, packFixed64 (n :: ns) = b :: bs :=
      ⟨n % 256, n / 256 % 256 :: n / 65536 % 256 :: n / 16777216 % 256 ::
        n / 4294967296 % 256 :: n / 1099511627776 % 256 :: n / 281474976710656 % 256 ::
        n / 72057594037927936 % 256 :: packFixed64 ns, by simp [packFixed64, encodeFixed64]⟩
    simp only [packFixed64, List.length_append] at hlen
    have h8 : (encodeFixed64 n).length = 8 := by simp [encodeFixed64]
    obtain ⟨f, rfl⟩ : ∃ f, fuel = f + 1 := ⟨fuel - 1, by omega⟩
    rw [show packFixed64 (n :: ns) = b :: bs from hbs, decodePackedFixed64Fuel]
    rw [← hbs]
    show (match decodeFixed64 (encodeFixed64 n ++ packFixed64 ns) with
      | some (m, r) =>
        match decodePackedFixed64Fuel f r with
        | some ms => some (m :: ms)
        | none => none
      | none => none) = some (n :: ns)
    rw [decodeFixed64_encodeFixed64 n _ hn]
    simp [ih f hns (by omega)]

theorem decodePackedFixed64_pack (ns : List Nat)
    (h : (ns.all fun n => decide (n < 18446744073709551616)) = true) :
    decodePackedFixed64 (packFixed64 ns) = some ns :=
  decodePackedFixed64Fuel_pack ns _ h (Nat.le_refl _)

/-! ## Decode-of-encode: per-message lemmas -/

theorem wfItemsB_itemsOfLinearTerm (t : LinearTerm) (h : wfLinearTermB t = true) :
    wfItemsB (itemsOfLinearTerm t) = true := by
  simp only [wfLinearTermB, Bool.and_eq_true, decide_eq_true_eq] at h
  by_cases h1 : t.id = 0 <;> by_cases h2 : t.coefficient = 0 <;>
    simp [itemsOfLinearTerm, wfItemsB, wfWireB, h1, h2, h.2]

theorem decodeLinearTerm_encodeLinearTerm (t : LinearTerm) (h : wfLinearTermB t = true) :
    decodeLinearTerm (encodeLinearTerm t) = some t := by
  have hwf := wfItemsB_itemsOfLinearTerm t h
  obtain ⟨tid, tc⟩ := t
  unfold decodeLinearTerm encodeLinearTerm
  rw [decodeItems_encodeItems _ hwf]
  by_cases h1 : tid = 0 <;> by_cases h2 : tc = 0 <;>
    simp [itemsOfLinearTerm, optFold, applyLinearTerm, defaultLinearTerm, h1, h2]

theorem optFold_applyLinear_terms (ts : List LinearTerm) :
    ∀ l, ts.all wfLinearTermB = true →
      optFold applyLinear l (ts.map fun t => (1, .delim (encodeLinearTerm t))) =
        some { l with terms := l.terms ++ ts } := by
  induction ts with
  | nil => intro l _; simp [optFold]
  | cons t ts ih =>
    intro l hwf
    simp only [List.all_cons, Bool.and_eq_true] at hwf
    simp only [List.map_cons, optFold, applyLinear, if_true,
      decodeLinearTerm_encodeLinearTerm t hwf.1]
    rw [ih _ hwf.2]
    simp

theorem optFold_applyLinear_unknown (u : List Item) :
    ∀ l, wfUnknownB [1, 2] u = true →
      optFold applyLinear l u = some { l with unknownFields := l.unknownFields ++ u } := by
  induction u with
  | nil => intro l _; simp [optFold]
  | cons it its ih =>
    intro l hwf
    simp only [wfUnknownB, List.all_cons, Bool.and_eq_true, decide_eq_true_eq] at hwf
    obtain ⟨⟨⟨h1, hmem⟩, hw⟩, hrest⟩ := hwf
    have hne1 : ¬ it.1 = 1 := fun hh => hmem (by simp [hh])
    have hne2 : ¬ it.1 = 2 := fun hh => hmem (by simp [hh])
    simp only [optFold, applyLinear, if_neg hne1, if_neg hne2, pushUnknownLinear]
    rw [ih _ (by simp only [wfUnknownB]; exact hrest)]
    simp

theorem wfItemsB_itemsOfLinear (l : Linear) (h : wfLinearB l = true) :
    wfItemsB (itemsOfLinear l) = true := by
  obtain ⟨ts, c, u⟩ := l
  simp only [wfLinearB, Bool.and_eq_true, decide_eq_true_eq] at h
  obtain ⟨⟨hts, hc⟩, hu⟩ := h
  have hu2 := wfItemsB_of_wfUnknownB _ _ hu
  simp only [itemsOfLinear, knownItemsLinear, wfItemsB_append]
  by_cases h0 : c = 0 <;> simp_all [wfItemsB, wfWireB, List.all_map, h0] <;> exact hu2

theorem decodeLinear_encodeLinear (l : Linear) (h : wfLinearB l = true) :
    decodeLinear (encodeLinear l) = some l := by
  have hwf := wfItemsB_itemsOfLinear l h
  obtain ⟨ts, c, u⟩ := l
  simp only [wfLinearB, Bool.and_eq_true, decide_eq_true_eq] at h
  obtain ⟨⟨hts, hc⟩, hu⟩ := h
  unfold decodeLinear encodeLinear
  rw [decodeItems_encodeItems _ hwf]
  simp only [itemsOfLinear, knownItemsLinear, List.append_assoc]
  rw [optFold_append, optFold_applyLinear_terms ts defaultLinear hts]
  simp only [optFold_append]
  by_cases h0 : c = 0
  · subst h0
    simp [optFold, optFold_applyLinear_unknown, hu, defaultLinear]
  · simp [h0, optFold, applyLinear, optFold_applyLinear_unknown, hu, defaultLinear]

theorem optFold_applyQuadratic_unknown (u : List Item) :
    ∀ q, wfUnknownB [1, 2, 3, 4] u = true →
      optFold applyQuadratic q u = some { q with unknownFields := q.unknownFields ++ u } := by
  induction u with
  | nil => intro q _; simp [optFold]
  | cons it its ih =>
    intro q hwf
    simp only [wfUnknownB, List.all_cons, Bool.and_eq_true, decide_eq_true_eq] at hwf
    obtain ⟨⟨⟨h1, hmem⟩, hw⟩, hrest⟩ := hwf
    have hne1 : ¬ it.1 = 1 := fun hh => hmem (by simp [hh])
    have hne2 : ¬ it.1 = 2 := fun hh => hmem (by simp [hh])
    have hne3 : ¬ it.1 = 3 := fun hh => hmem (by simp [hh])
    have hne4 : ¬ it.1 = 4 := fun hh => hmem (by simp [hh])
    simp only [optFold, applyQuadratic, if_neg hne1, if_neg hne2, if_neg hne3,
      if_neg hne4, pushUnknownQuadratic]
    rw [ih _ (by simp only [wfUnknownB]; exact hrest)]
    simp

theorem optFold_applyQuadratic_rows (q : Quadratic) (rs : List Nat) :
    optFold applyQuadratic q (if rs = [] then [] else [(1, .delim (packVarints rs))]) =
      some { q with rows_ := q.rows_ ++ rs } := by
  by_cases h0 : rs = []
  · simp [h0, optFold]
  · simp [h0, optFold, applyQuadratic, decodePackedVarints_pack]

theorem optFold_applyQuadratic_columns (q : Quadratic) (cs : List Nat) :
    optFold applyQuadratic q (if cs = [] then [] else [(2, .delim (packVarints cs))]) =
      some { q with columns_ := q.columns_ ++ cs } := by
  by_cases h0 : cs = []
  · simp [h0, optFold]
  · simp [h0, optFold, applyQuadratic, decodePackedVarints_pack]

theorem optFold_applyQuadratic_values (q : Quadratic) (vs : List Nat)
    (h : (vs.all fun n => decide (n < 18446744073709551616)) = true) :
    optFold applyQuadratic q (if vs = [] then [] else [(3, .delim (packFixed64 vs))]) =
      some { q with values_ := q.values_ ++ vs } := by
  by_cases h0 : vs = []
  · simp [h0, optFold]
  · simp [h0, optFold, applyQuadratic, decodePackedFixed64_pack vs h]

theorem applyQuadratic_linear_item (q : Quadratic) (hq : q.linear_ = none)
    (l : Linear) (hl : wfLinearB l = true) :
    applyQuadratic q (4, .delim (encodeLinear l)) = some { q with linear_ := some l } := by
  have hdec := decodeLinear_encodeLinear l hl
  unfold decodeLinear at hdec
  cases hit : decodeItems (encodeLinear l) with
  | none => rw [hit] at hdec; simp at hdec
  | some its =>
    rw [hit] at hdec
    simp at hdec
    simp [applyQuadratic, hq, hit, hdec]

theorem optFold_applyQuadratic_linearSeg (q : Quadratic) (lin : Option Linear)
    (hq : q.linear_ = none)
    (hl : (match lin with | none => true | some l => wfLinearB l) = true) :
    optFold applyQuadratic q (optLinearItem lin) = some { q with linear_ := lin } := by
  cases lin with
  | none =>
    obtain ⟨a, b, c, d, e⟩ := q
    simp at hq
    subst hq
    simp [optLinearItem, optFold]
  | some l =>
    simp only [optLinearItem, optFold, applyQuadratic_linear_item q hq l hl]

theorem wfItemsB_itemsOfQuadratic (q : Quadratic) (h : wfQuadraticB q = true) :
    wfItemsB (itemsOfQuadratic q) = true := by
  obtain ⟨rs, cs, vs, lin, u⟩ := q
  simp only [wfQuadraticB, Bool.and_eq_true] at h
  obtain ⟨⟨⟨⟨hr, hc⟩, hv⟩, hl⟩, hu⟩ := h
  have hu2 := wfItemsB_of_wfUnknownB _ _ hu
  simp only [itemsOfQuadratic, knownItemsQuadratic, wfItemsB_append, Bool.and_eq_true]
  by_cases h1 : rs = [] <;> by_cases h2 : cs = [] <;> by_cases h3 : vs = [] <;>
    cases lin <;>
      simp_all [optLinearItem, wfItemsB, wfWireB] <;> exact hu2

theorem decodeQuadratic_encodeQuadratic (q : Quadratic) (h : wfQuadraticB q = true) :
    decodeQuadratic (encodeQuadratic q) = some q := by
  have hwf := wfItemsB_itemsOfQuadratic q h
  obtain ⟨rs, cs, vs, lin, u⟩ := q
  simp only [wfQuadraticB, Bool.and_eq_true] at h
  obtain ⟨⟨⟨⟨hr, hc⟩, hv⟩, hl⟩, hu⟩ := h
  unfold decodeQuadratic encodeQuadratic
  rw [decodeItems_encodeItems _ hwf]
  simp [itemsOfQuadratic, knownItemsQuadratic, List.append_assoc, optFold_append,
    optFold_applyQuadratic_rows, optFold_applyQuadratic_columns,
    optFold_applyQuadratic_values, hv, optFold_applyQuadratic_linearSeg, hl,
    optFold_applyQuadratic_unknown, hu, defaultQuadratic]

theorem optFold_applyFunction_unknown (u : List Item) :
    ∀ f, wfUnknownB [1, 2, 3, 4] u = true →
      optFold applyFunction f u = some { f with unknownFields := f.unknownFields ++ u } := by
  induction u with
  | nil => intro f _; simp [optFold]
  | cons it its ih =>
    intro f hwf
    simp only [wfUnknownB, List.all_cons, Bool.and_eq_true, decide_eq_true_eq] at hwf
    obtain ⟨⟨⟨h1, hmem⟩, hw⟩, hrest⟩ := hwf
    have hne1 : ¬ it.1 = 1 := fun hh => hmem (by simp [hh])
    have hne2 : ¬ it.1 = 2 := fun hh => hmem (by simp [hh])
    have hne3 : ¬ it.1 = 3 := fun hh => hmem (by simp [hh])
    have hne4 : ¬ it.1 = 4 := fun hh => hmem (by simp [hh])
    simp only [optFold, applyFunction, if_neg hne1, if_neg hne2, if_neg hne3,
      if_neg hne4, pushUnknownFunction]
    rw [ih _ (by simp only [wfUnknownB]; exact hrest)]
    simp

theorem applyFunction_constant_item (f : Function) (c : Nat) :
    applyFunction f (1, .f64 c) = some { f with function_ := .constant c } := by
  simp [applyFunction]

theorem applyFunction_linear_item (f : Function) (hf : f.function_ = .notSet)
    (l : Linear) (hl : wfLinearB l = true) :
    applyFunction f (2, .delim (encodeLinear l)) = some { f with function_ := .linear l } := by
  have hdec := decodeLinear_encodeLinear l hl
  unfold decodeLinear at hdec
  cases hit : decodeItems (encodeLinear l) with
  | none => rw [hit] at hdec; simp at hdec
  | some its =>
    rw [hit] at hdec
    simp at hdec
    simp [applyFunction, hf, hit, hdec]

theorem applyFunction_quadratic_item (f : Function) (hf : f.function_ = .notSet)
    (q : Quadratic) (hq : wfQuadraticB q = true) :
    applyFunction f (3, .delim (encodeQuadratic q)) =
      some { f with function_ := .quadratic q } := by
  have hdec := decodeQuadratic_encodeQuadratic q hq
  unfold decodeQuadratic at hdec
  cases hit : decodeItems (encodeQuadratic q) with
  | none => rw [hit] at hdec; simp at hdec
  | some its =>
    rw [hit] at hdec
    simp at hdec
    simp [applyFunction, hf, hit, hdec]

theorem applyFunction_polynomial_item (f : Function) (hf : f.function_ = .notSet)
    (p : Bytes) :
    applyFunction f (4, .delim p) = some { f with function_ := .polynomial p } := by
  simp [applyFunction, hf]

theorem wfItemsB_itemsOfFunction (f : Function) (h : wfFunctionB f = true) :
    wfItemsB (itemsOfFunction f) = true := by
  obtain ⟨v, u⟩ := f
  simp only [wfFunctionB, Bool.and_eq_true] at h
  obtain ⟨hv, hu⟩ := h
  have hu2 := wfItemsB_of_wfUnknownB _ _ hu
  cases v <;>
    simp_all [itemsOfFunction, knownItemsFunction, wfItemsB_append, wfItemsB, wfWireB] <;>
    exact hu2

theorem decodeFunction_encodeFunction (f : Function) (h : wfFunctionB f = true) :
    decodeFunction (encodeFunction f) = some f := by
  have hwf := wfItemsB_itemsOfFunction f h
  obtain ⟨v, u⟩ := f
  simp only [wfFunctionB, Bool.and_eq_true] at h
  obtain ⟨hv, hu⟩ := h
  unfold decodeFunction encodeFunction
  rw [decodeItems_encodeItems _ hwf]
  cases v with
  | notSet =>
    simp [itemsOfFunction, knownItemsFunction, optFold_applyFunction_unknown, hu,
      defaultFunction]
  | constant c =>
    simp [itemsOfFunction, knownItemsFunction, optFold, applyFunction_constant_item,
      optFold_applyFunction_unknown, hu, defaultFunction]
  | linear l =>
    have hv2 : wfLinearB l = true := hv
    simp [itemsOfFunction, knownItemsFunction, optFold, applyFunction_linear_item,
      hv2, optFold_applyFunction_unknown, hu, defaultFunction]
  | quadratic q =>
    have hv2 : wfQuadraticB q = true := hv
    simp [itemsOfFunction, knownItemsFunction, optFold, applyFunction_quadratic_item,
      hv2, optFold_applyFunction_unknown, hu, defaultFunction]
  | polynomial p =>
    simp [itemsOfFunction, knownItemsFunction, optFold, applyFunction_polynomial_item,
      optFold_applyFunction_unknown, hu, defaultFunction]

theorem optFold_applyDescription_unknown (u : List Item) :
    ∀ d, wfUnknownB [1, 2, 3, 4] u = true →
      optFold applyDescription d u =
        some { d with unknownFields := d.unknownFields ++ u } := by
  induction u with
  | nil => intro d _; simp [optFold]
  | cons it its ih =>
    intro d hwf
    simp only [wfUnknownB, List.all_cons, Bool.and_eq_true, decide_eq_true_eq] at hwf
    obtain ⟨⟨⟨h1, hmem⟩, hw⟩, hrest⟩ := hwf
    have hne1 : ¬ it.1 = 1 := fun hh => hmem (by simp [hh])
    have hne2 : ¬ it.1 = 2 := fun hh => hmem (by simp [hh])
    have hne3 : ¬ it.1 = 3 := fun hh => hmem (by simp [hh])
    have hne4 : ¬ it.1 = 4 := fun hh => hmem (by simp [hh])
    simp only [optFold, applyDescription, if_neg hne1, if_neg hne2, if_neg hne3,
      if_neg hne4, pushUnknownDescription]
    rw [ih _ (by simp only [wfUnknownB]; exact hrest)]
    simp

theorem optFold_applyDescription_authors (as : List Bytes) :
    ∀ d, as.all utf8ValidB = true →
      optFold applyDescription d (as.map fun s => (3, .delim s)) =
        some { d with authors_ := d.authors_ ++ as } := by
  induction as with
  | nil => intro d _; simp [optFold]
  | cons a as ih =>
    intro d hwf
    simp only [List.all_cons, Bool.and_eq_true] at hwf
    simp [optFold, applyDescription, hwf.1, hwf.2, ih]

theorem optFold_applyDescription_name (d : Instance_Description) (o : Option Bytes)
    (hd : d.name_ = none) (ho : optStrValidB o = true) :
    optFold applyDescription d (optItem 1 o) = some { d with name_ := o } := by
  cases o with
  | none =>
    obtain ⟨a, b, c, e, g⟩ := d
    simp at hd
    subst hd
    simp [optItem, optFold]
  | some s =>
    simp only [optStrValidB] at ho
    simp [optItem, optFold, applyDescription, ho]

theorem optFold_applyDescription_descfield (d : Instance_Description) (o : Option Bytes)
    (hd : d.description_ = none) (ho : optStrValidB o = true) :
    optFold applyDescription d (optItem 2 o) = some { d with description_ := o } := by
  cases o with
  | none =>
    obtain ⟨a, b, c, e, g⟩ := d
    simp at hd
    subst hd
    simp [optItem, optFold]
  | some s =>
    simp only [optStrValidB] at ho
    simp [optItem, optFold, applyDescription, ho]

theorem optFold_applyDescription_createdby (d : Instance_Description) (o : Option Bytes)
    (hd : d.created_by_ = none) (ho : optStrValidB o = true) :
    optFold applyDescription d (optItem 4 o) = some { d with created_by_ := o } := by
  cases o with
  | none =>
    obtain ⟨a, b, c, e, g⟩ := d
    simp at hd
    subst hd
    simp [optItem, optFold]
  | some s =>
    simp only [optStrValidB] at ho
    simp [optItem, optFold, applyDescription, ho]

theorem wfItemsB_itemsOfDescription (d : Instance_Description)
    (h : wfDescriptionB d = true) : wfItemsB (itemsOfDescription d) = true := by
  obtain ⟨nm, ds, as, cb, u⟩ := d
  simp only [wfDescriptionB, Bool.and_eq_true] at h
  obtain ⟨⟨⟨⟨hn, hs⟩, ha⟩, hc⟩, hu⟩ := h
  have hu2 := wfItemsB_of_wfUnknownB _ _ hu
  cases nm <;> cases ds <;> cases cb <;>
    simp_all [itemsOfDescription, knownItemsDescription, wfItemsB_append, optItem,
      wfItemsB, wfWireB, List.all_map] <;>
    exact hu2

theorem decodeDescription_encodeDescription (d : Instance_Description)
    (h : wfDescriptionB d = true) : decodeDescription (encodeDescription d) = some d := by
  have hwf := wfItemsB_itemsOfDescription d h
  obtain ⟨nm, ds, as, cb, u⟩ := d
  simp only [wfDescriptionB, Bool.and_eq_true] at h
  obtain ⟨⟨⟨⟨hn, hs⟩, ha⟩, hc⟩, hu⟩ := h
  unfold decodeDescription encodeDescription
  rw [decodeItems_encodeItems _ hwf]
  simp [itemsOfDescription, knownItemsDescription, List.append_assoc, optFold_append,
    optFold_applyDescription_name, optFold_applyDescription_descfield,
    optFold_applyDescription_authors, optFold_applyDescription_createdby,
    hn, hs, ha, hc, optFold_applyDescription_unknown, hu, defaultDescription]

theorem optFold_applyInstance_unknown (u : List Item) :
    ∀ i, wfUnknownB [1, 2, 3, 4, 5] u = true →
      optFold applyInstance i u =
        some { i with unknownFields := i.unknownFields ++ u } := by
  induction u with
  | nil => intro i _; simp [optFold]
  | cons it its ih =>
    intro i hwf
    simp only [wfUnknownB, List.all_cons, Bool.and_eq_true, decide_eq_true_eq] at hwf
    obtain ⟨⟨⟨h1, hmem⟩, hw⟩, hrest⟩ := hwf
    have hne1 : ¬ it.1 = 1 := fun hh => hmem (by simp [hh])
    have hne2 : ¬ it.1 = 2 := fun hh => hmem (by simp [hh])
    have hne3 : ¬ it.1 = 3 := fun hh => hmem (by simp [hh])
    have hne4 : ¬ it.1 = 4 := fun hh => hmem (by simp [hh])
    have hne5 : ¬ it.1 = 5 := fun hh => hmem (by simp [hh])
    simp only [optFold, applyInstance, if_neg hne1, if_neg hne2, if_neg hne3,
      if_neg hne4, if_neg hne5, pushUnknownInstance]
    rw [ih _ (by simp only [wfUnknownB]; exact hrest)]
    simp

theorem optFold_applyInstance_dvs (bs : List Bytes) :
    ∀ i, optFold applyInstance i (bs.map fun b => (2, .delim b)) =
      some { i with decision_variables_ := i.decision_variables_ ++ bs } := by
  induction bs with
  | nil => intro i; simp [optFold]
  | cons b bs ih =>
    intro i
    simp [optFold, applyInstance, ih]

theorem optFold_applyInstance_constraints (bs : List Bytes) :
    ∀ i, optFold applyInstance i (bs.map fun b => (4, .delim b)) =
      some { i with constraints_ := i.constraints_ ++ bs } := by
  induction bs with
  | nil => intro i; simp [optFold]
  | cons b bs ih =>
    intro i
    simp [optFold, applyInstance, ih]

theorem applyInstance_description_item (i : Instance) (hi : i.description_ = none)
    (d : Instance_Description) (hd : wfDescriptionB d = true) :
    applyInstance i (1, .delim (encodeDescription d)) =
      some { i with description_ := some d } := by
  have hdec := decodeDescription_encodeDescription d hd
  unfold decodeDescription at hdec
  cases hit : decodeItems (encodeDescription d) with
  | none => rw [hit] at hdec; simp at hdec
  | some its =>
    rw [hit] at hdec
    simp at hdec
    simp [applyInstance, hi, hit, hdec]

theorem applyInstance_objective_item (i : Instance) (hi : i.objective_ = none)
    (f : Function) (hf : wfFunctionB f = true) :
    applyInstance i (3, .delim (encodeFunction f)) =
      some { i with objective_ := some f } := by
  have hdec := decodeFunction_encodeFunction f hf
  unfold decodeFunction at hdec
  cases hit : decodeItems (encodeFunction f) with
  | none => rw [hit] at hdec; simp at hdec
  | some its =>
    rw [hit] at hdec
    simp at hdec
    simp [applyInstance, hi, hit, hdec]

theorem optFold_applyInstance_descSeg (i : Instance) (o : Option Instance_Description)
    (hi : i.description_ = none)
    (ho : (match o with | none => true | some d => wfDescriptionB d) = true) :
    optFold applyInstance i (optDescriptionItem o) = some { i with description_ := o } := by
  cases o with
  | none =>
    obtain ⟨a, b, c, e, g, k⟩ := i
    simp at hi
    subst hi
    simp [optDescriptionItem, optFold]
  | some d =>
    simp only [optDescriptionItem, optFold, applyInstance_description_item i hi d ho]

theorem optFold_applyInstance_objSeg (i : Instance) (o : Option Function)
    (hi : i.objective_ = none)
    (ho : (match o with | none => true | some f => wfFunctionB f) = true) :
    optFold applyInstance i (optFunctionItem o) = some { i with objective_ := o } := by
  cases o with
  | none =>
    obtain ⟨a, b, c, e, g, k⟩ := i
    simp at hi
    subst hi
    simp [optFunctionItem, optFold]
  | some f =>
    simp only [optFunctionItem, optFold, applyInstance_objective_item i hi f ho]

theorem optFold_applyInstance_sense (i : Instance) (s : Nat)
    (hi : i.sense_ = 0) (hs : s < 4294967296) :
    optFold applyInstance i (if s = 0 then [] else [(5, .vint s)]) =
      some { i with sense_ := s } := by
  by_cases h0 : s = 0
  · obtain ⟨a, b, c, e, g, k⟩ := i
    simp at hi
    subst hi
    simp [h0, optFold]
  · simp [h0, optFold, applyInstance, Nat.mod_eq_of_lt hs]

theorem wfItemsB_itemsOfInstance (i : Instance) (h : wfInstanceB i = true) :
    wfItemsB (itemsOfInstance i) = true := by
  obtain ⟨dsc, dvs, obj, css, sn, u⟩ := i
  simp only [wfInstanceB, Bool.and_eq_true] at h
  obtain ⟨⟨⟨hd, ho⟩, hs⟩, hu⟩ := h
  have hu2 := wfItemsB_of_wfUnknownB _ _ hu
  cases dsc <;> cases obj <;> by_cases h0 : sn = 0 <;>
    simp_all [itemsOfInstance, knownItemsInstance, wfItemsB_append, optDescriptionItem,
      optFunctionItem, wfItemsB, wfWireB, List.all_map] <;>
    exact hu2

theorem decodeInstance_encodeInstance (i : Instance) (h : wfInstanceB i = true) :
    decodeInstance (encodeInstance i) = some i := by
  have hwf := wfItemsB_itemsOfInstance i h
  obtain ⟨dsc, dvs, obj, css, sn, u⟩ := i
  simp only [wfInstanceB, Bool.and_eq_true, decide_eq_true_eq] at h
  obtain ⟨⟨⟨hd, ho⟩, hs⟩, hu⟩ := h
  have hs32 : sn < 4294967296 := by omega
  unfold decodeInstance encodeInstance
  rw [decodeItems_encodeItems _ hwf]
  simp [itemsOfInstance, knownItemsInstance, List.append_assoc, optFold_append,
    optFold_applyInstance_descSeg, hd, optFold_applyInstance_dvs,
    optFold_applyInstance_objSeg, ho, optFold_applyInstance_constraints,
    optFold_applyInstance_sense, hs32, optFold_applyInstance_unknown, hu,
    defaultInstance]

/-! ## CopyFrom support -/

theorem mergeDescription_cleared (x y : Instance_Description) :
    mergeDescription (clearDescription x) y = y := by
  obtain ⟨nm, ds, as, cb, u⟩ := y
  cases nm <;> cases ds <;> cases cb <;> simp [mergeDescription, clearDescription]

theorem mergeInstance_cleared (x y : Instance) :
    mergeInstance (clearInstance x) y = y := by
  obtain ⟨dsc, dvs, obj, css, sn, u⟩ := y
  cases dsc <;> cases obj <;> by_cases h0 : sn = 0 <;>
    simp [mergeInstance, clearInstance, h0]

/-! ## Claims -/

/-- Claim C1: for every constructible message (`Instance`,
`Instance.Description`, `Function`, `Quadratic`), decoding the bytes
produced by encoding it yields a message equal to the original
field-for-field; in particular the three states of each optional string
field of `Instance.Description` (absent / present-but-empty /
present-with-value, tracked by has-bits) are preserved across the
encode-then-decode round trip. -/
theorem C1_encode_decode_roundtrip :
    (∀ i : Instance, wfInstanceB i = true →
      decodeInstance (encodeInstance i) = some i) ∧
    (∀ d : Instance_Description, wfDescriptionB d = true →
      decodeDescription (encodeDescription d) = some d) ∧
    (∀ f : Function, wfFunctionB f = true →
      decodeFunction (encodeFunction f) = some f) ∧
    (∀ q : Quadratic, wfQuadraticB q = true →
      decodeQuadratic (encodeQuadratic q) = some q) :=
  ⟨decodeInstance_encodeInstance, decodeDescription_encodeDescription,
   decodeFunction_encodeFunction, decodeQuadratic_encodeQuadratic⟩

/-- Concrete round trips: the example `Instance` (whose description has
`name` absent, `description` present-but-empty and `created_by` set), and
the example `Description`, `Function` and `Quadratic`. -/
theorem C1_encode_decode_roundtrip_witness :
    decodeInstance (encodeInstance exInstance) = some exInstance ∧
    decodeDescription (encodeDescription exDescription) = some exDescription ∧
    decodeFunction (encodeFunction exFunction) = some exFunction ∧
    decodeQuadratic (encodeQuadratic exQuadratic) = some exQuadratic :=
  ⟨C1_encode_decode_roundtrip.1 exInstance (by decide),
   C1_encode_decode_roundtrip.2.1 exDescription (by decide),
   C1_encode_decode_roundtrip.2.2.1 exFunction (by decide),
   C1_encode_decode_roundtrip.2.2.2 exQuadratic (by decide)⟩

/-- Claim C2: for every `Function` and every nonempty finite sequence of
`set_constant` / `mutable_linear` / `mutable_quadratic` /
`mutable_polynomial` calls, after the last call exactly one variant
reports present (the one of the last call) and the other three report
absent, and `function_case()` equals the single discriminant of the last
call — setting a variant different from the active one first clears the
previously held variant. -/
theorem C2_oneof_exclusivity (f : Function) (ops : List FnOp) (op : FnOp) :
    ((((ops ++ [op]).foldl applyFnOp f).has_constant,
      (((ops ++ [op]).foldl applyFnOp f)).has_linear,
      (((ops ++ [op]).foldl applyFnOp f)).has_quadratic,
      (((ops ++ [op]).foldl applyFnOp f)).has_polynomial) = variantFlags op) ∧
    ((ops ++ [op]).foldl applyFnOp f).function_case = fnOpCase op := by
  simp only [List.foldl_append, List.foldl_cons, List.foldl_nil]
  generalize List.foldl applyFnOp f ops = g
  cases op <;> cases hg : g.function_ <;>
    simp [applyFnOp, Function.set_constant, Function.mutable_linear,
      Function.mutable_quadratic, Function.mutable_polynomial,
      Function.has_constant, Function.has_linear, Function.has_quadratic,
      Function.has_polynomial, Function.function_case, variantFlags, fnOpCase, hg]

/-- Claim C3: reading an inactive `Function` variant does not fail and
returns the zero-valued default: `constant()` is 0 whenever
`function_case() != kConstant` (= 1), and `linear()` / `quadratic()` /
`polynomial()` return the empty default instance whenever that variant is
not the active one. -/
theorem C3_inactive_variant_defaults (f : Function) :
    (f.function_case ≠ 1 → f.constant = 0) ∧
    (f.function_case ≠ 2 → f.linear = defaultLinear) ∧
    (f.function_case ≠ 3 → f.quadratic = defaultQuadratic) ∧
    (f.function_case ≠ 4 → f.polynomial = []) := by
  cases hf : f.function_ <;>
    simp [Function.function_case, Function.constant, Function.linear,
      Function.quadratic, Function.polynomial, hf]

/-- The default `Function` (no case set) answers every read with the
zero-valued default. -/
theorem C3_inactive_variant_defaults_witness :
    Function.constant defaultFunction = 0 ∧
    Function.linear defaultFunction = defaultLinear ∧
    Function.quadratic defaultFunction = defaultQuadratic ∧
    Function.polynomial defaultFunction = [] :=
  ⟨(C3_inactive_variant_defaults defaultFunction).1 (by decide),
   (C3_inactive_variant_defaults defaultFunction).2.1 (by decide),
   (C3_inactive_variant_defaults defaultFunction).2.2.1 (by decide),
   (C3_inactive_variant_defaults defaultFunction).2.2.2 (by decide)⟩

/-- Claim C4: unknown fields are preserved opaquely: the serializer emits
the unknown-field set unchanged after the known fields, and decoding
bytes holding unrecognized field numbers (with valid wire types) stores
them in the unknown-field set so that re-encoding reproduces the original
unknown bytes exactly. -/
theorem C4_unknown_fields_reemitted :
    (∀ i : Instance,
      encodeInstance i = encodeItems (knownItemsInstance i) ++ encodeItems i.unknownFields) ∧
    (∀ d : Instance_Description,
      encodeDescription d =
        encodeItems (knownItemsDescription d) ++ encodeItems d.unknownFields) ∧
    (∀ u : List Item, wfUnknownB [1, 2, 3, 4, 5] u = true →
      decodeInstance (encodeItems u) = some { defaultInstance with unknownFields := u } ∧
      encodeInstance { defaultInstance with unknownFields := u } = encodeItems u) ∧
    (∀ u : List Item, wfUnknownB [1, 2, 3, 4] u = true →
      decodeDescription (encodeItems u) =
        some { defaultDescription with unknownFields := u } ∧
      encodeDescription { defaultDescription with unknownFields := u } = encodeItems u) := by
  refine ⟨?_, ?_, ?_, ?_⟩
  · intro i
    simp [encodeInstance, itemsOfInstance, encodeItems_append]
  · intro d
    simp [encodeDescription, itemsOfDescription, encodeItems_append]
  · intro u hu
    constructor
    · have h1 := decodeItems_encodeItems u (wfItemsB_of_wfUnknownB _ _ hu)
      simp [decodeInstance, h1, optFold_applyInstance_unknown, hu, defaultInstance]
    · simp [encodeInstance, itemsOfInstance, knownItemsInstance, defaultInstance,
        optDescriptionItem, optFunctionItem]
  · intro u hu
    constructor
    · have h1 := decodeItems_encodeItems u (wfItemsB_of_wfUnknownB _ _ hu)
      simp [decodeDescription, h1, optFold_applyDescription_unknown, hu, defaultDescription]
    · simp [encodeDescription, itemsOfDescription, knownItemsDescription,
        defaultDescription, optItem]

/-- Decoding one unknown varint field (number 6) into an `Instance` and
one unknown field (number 6) into a `Description`, then re-encoding,
reproduces the original bytes. -/
theorem C4_unknown_fields_reemitted_witness :
    (decodeInstance (encodeItems [(6, .vint 7)]) =
      some { defaultInstance with unknownFields := [(6, .vint 7)] } ∧
      encodeInstance { defaultInstance with unknownFields := [(6, .vint 7)] } =
        encodeItems [(6, .vint 7)]) ∧
    (decodeDescription (encodeItems [(6, .delim [1, 2])]) =
      some { defaultDescription with unknownFields := [(6, .delim [1, 2])] } ∧
      encodeDescription { defaultDescription with unknownFields := [(6, .delim [1, 2])] } =
        encodeItems [(6, .delim [1, 2])]) :=
  ⟨C4_unknown_fields_reemitted.2.2.1 [(6, .vint 7)] (by decide),
   C4_unknown_fields_reemitted.2.2.2 [(6, .delim [1, 2])] (by decide)⟩

/-- Claim C5: decoding an `Instance` whose `sense` field carries the
out-of-range value 3 succeeds, stores the raw integer, and re-encoding
emits the same raw varint 3 for field 5 (bytes `[0x28, 0x03]`);
`Instance_Sense_IsValid(v)` is true exactly for `0 <= v <= 2`, and in
particular rejects 3, but validity is not enforced at decode time. -/
theorem C5_open_enum_sense :
    decodeInstance [40, 3] = some { defaultInstance with sense_ := 3 } ∧
    encodeInstance { defaultInstance with sense_ := 3 } = [40, 3] ∧
    (∀ v : Int, Instance_Sense_IsValid v = true ↔ (0 ≤ v ∧ v ≤ 2)) ∧
    Instance_Sense_IsValid 3 = false := by
  refine ⟨by decide, by decide, ?_, by decide⟩
  intro v
  simp [Instance_Sense_IsValid]

/-- Claim C6: no structural validity check is performed by any message
operation: `add_rows` / `add_columns` / `add_values` each append
independently, so a `Quadratic` with mismatched `rows` / `columns` /
`values` lengths is constructible, encodes without rejection and decodes
back to itself; and `IsInitialized()` is unconditionally true. -/
theorem C6_no_structural_validation :
    exMismatchedQuadratic.rows_size = 2 ∧
    exMismatchedQuadratic.columns_size = 0 ∧
    exMismatchedQuadratic.values_size = 1 ∧
    decodeQuadratic (encodeQuadratic exMismatchedQuadratic) = some exMismatchedQuadratic ∧
    (∀ i : Instance, i.IsInitialized = true) ∧
    (∀ d : Instance_Description, d.IsInitialized = true) ∧
    (∀ q : Quadratic, q.IsInitialized = true) :=
  ⟨by decide, by decide, by decide, by decide,
   fun _ => rfl, fun _ => rfl, fun _ => rfl⟩

/-- Claim C7: the embedded `Linear` of a `Quadratic` is optional and its
absence means a zero linear part: when `has_linear()` is false,
`linear()` returns the empty default `Linear` rather than failing, and
`has_linear()` is true exactly when a `Linear` submessage is actually
held. -/
theorem C7_optional_linear_defaults (q : Quadratic) :
    (q.has_linear = false → q.linear = defaultLinear) ∧
    (q.has_linear = true ↔ ∃ l : Linear, q.linear_ = some l) := by
  cases hq : q.linear_ <;> simp [Quadratic.has_linear, Quadratic.linear, hq]

/-- The default `Quadratic` holds no `Linear` and reads back the empty
default. -/
theorem C7_optional_linear_defaults_witness :
    Quadratic.linear defaultQuadratic = defaultLinear :=
  (C7_optional_linear_defaults defaultQuadratic).1 (by decide)

/-- Claim C8: presence of the `Function` constant variant is tracked by
the oneof discriminant, not by the value: after `set_constant(0.0)` (bit
pattern 0), `has_constant()` is true and `function_case()` is `kConstant`
(= 1), while the freshly constructed `Function` has `function_case()` =
`FUNCTION_NOT_SET` (= 0) and `has_constant()` false — even though
`constant()` returns 0 in both states. -/
theorem C8_constant_presence_tracked (f : Function) :
    (f.set_constant 0).has_constant = true ∧
    (f.set_constant 0).function_case = 1 ∧
    (f.set_constant 0).constant = 0 ∧
    defaultFunction.has_constant = false ∧
    defaultFunction.function_case = 0 ∧
    defaultFunction.constant = 0 := by
  simp [Function.set_constant, Function.has_constant, Function.function_case,
    Function.constant, defaultFunction]

/-- Claim C9: `CopyFrom` is safe under self-assignment and otherwise a
full overwrite: `x.CopyFrom(x)` leaves `x` unchanged, and `x.CopyFrom(y)`
equals `x.Clear()` followed by `x.MergeFrom(y)`, leaving `x`
field-for-field equal to `y` — for both `Instance` and
`Instance.Description`. -/
theorem C9_copyfrom_overwrite (x y : Instance) (dx dy : Instance_Description) :
    copyFromInstance x x = x ∧
    copyFromInstance x y = mergeInstance (clearInstance x) y ∧
    copyFromInstance x y = y ∧
    copyFromDescription dx dx = dx ∧
    copyFromDescription dx dy = mergeDescription (clearDescription dx) dy ∧
    copyFromDescription dx dy = dy := by
  refine ⟨by simp [copyFromInstance], ?_, ?_, by simp [copyFromDescription], ?_, ?_⟩
  · by_cases h : x = y
    · simp [copyFromInstance, h, mergeInstance_cleared]
    · simp [copyFromInstance, h]
  · by_cases h : x = y
    · simp [copyFromInstance, h, mergeInstance_cleared]
    · simp [copyFromInstance, h, mergeInstance_cleared]
  · by_cases h : dx = dy
    · simp [copyFromDescription, h, mergeDescription_cleared]
    · simp [copyFromDescription, h]
  · by_cases h : dx = dy
    · simp [copyFromDescription, h, mergeDescription_cleared]
    · simp [copyFromDescription, h, mergeDescription_cleared]

/-- Claim C10: `Instance::MergeFrom` appends the source's repeated
`decision_variables` and `constraints` after the destination's elements,
recursively merges `description` and `objective` when present on both
sides (copying when only the source holds one), and overwrites the
destination's `sense` only when the source's `sense` is nonzero — a
source with `sense == 0` leaves the destination's `sense` unchanged. -/
theorem C10_merge_semantics (t s : Instance) :
    (mergeInstance t s).decision_variables_ =
      t.decision_variables_ ++ s.decision_variables_ ∧
    (mergeInstance t s).constraints_ = t.constraints_ ++ s.constraints_ ∧
    (mergeInstance t s).description_ =
      (match s.description_ with
       | none => t.description_
       | some sd =>
         some (match t.description_ with | none => sd | some td => mergeDescription td sd)) ∧
    (mergeInstance t s).objective_ =
      (match s.objective_ with
       | none => t.objective_
       | some sf =>
         some (match t.objective_ with | none => sf | some tf => mergeFunction tf sf)) ∧
    (mergeInstance t s).sense_ = (if s.sense_ = 0 then t.sense_ else s.sense_) := by
  refine ⟨rfl, rfl, ?_, ?_, ?_⟩
  · cases hs : s.description_ <;> simp [mergeInstance, hs]
  · cases hs : s.objective_ <;> simp [mergeInstance, hs]
  · by_cases h0 : s.sense_ = 0 <;> simp [mergeInstance, h0]

end OmmxV1
